import Mathlib

/-!
Shallow embedding of the nsudoku-solve core (src/sudoku.rs and
src/sudoku/solve.rs): the grid data model, the textual parser, the
augmented grid with constraint propagation, and the three search
strategies (naive_dfs, dfs, sorted_dfs).

Modelling conventions:
* `Array2<SudokuValue>` of shape `(order, order)` is stored row-major as a
  flat list together with its side length; the flat index `i` corresponds
  to the 2-dimensional index `(i / order, i % order)`.
* Machine integers (`usize`, `u8`, `NonZeroU8`) are `Nat` with explicit
  wrap-around (`% 256` for the `as u8` cast, `2 ^ 64 - 1` for
  `usize::MAX`) where the source casts.
* Rust panics (`assert!`, `assert_eq!`, `unreachable!`) in the parsing
  pipeline are modelled as `Option.none` results; a returned
  `ParseIntError` is `Except.error`.
* `HashSet<NonZeroU8>` is a `Finset Nat`; its (unspecified) iteration
  order is fixed to ascending order (`possibleSort`, an insertion sort
  lifted to the multiset quotient).
* The unbounded recursion of the three solvers is modelled with a fuel
  parameter; the top-level entry points supply fuel `count + 1` where
  `count` bounds the recursion depth (one cell is decided per call), and
  fuel-irrelevance lemmas below show the bound is sufficient.
-/

/-- A cell of the grid: `SudokuValue(Option<NonZeroU8>)`; `none` is an empty cell. -/
abbrev SudokuValue := Option Nat

/-- `Sudoku(Array2<SudokuValue>)`: the `order × order` array stored row-major. -/
structure Sudoku where
  order : Nat
  data : List SudokuValue
deriving DecidableEq

/-- Cell at flat index `i` (indexing an `Array2` never goes out of bounds
on the shapes constructed by the program; the default is irrelevant). -/
def Sudoku.cell (g : Sudoku) (i : Nat) : SudokuValue := g.data.getD i none

/-- Floor square root (the number of `x ≤ n` with `x * x ≤ n`, minus one);
models `(self.order() as f64).sqrt() as usize`, which is exact for every
order the program constructs. -/
def natSqrt (n : Nat) : Nat :=
  ((List.range (n + 1)).filter fun x => x * x ≤ n).length - 1

/-- `(self.order() as f64).sqrt() as usize`. -/
def Sudoku.cell_size (g : Sudoku) : Nat := natSqrt g.order

/-- `self.0.iter().all(|value| value.is_some())`. -/
def Sudoku.filled (g : Sudoku) : Bool := g.data.all fun v => v.isSome

/-- The inner check of `valid_set`: every element is empty or does not
reappear among the later elements
(`value.is_none() || !subset.iter().skip(ix + 1).any(|val| val == value)`). -/
def validSubset : List SudokuValue → Bool
  | [] => true
  | v :: rest => (v.isNone || !(rest.any fun val => val == v)) && validSubset rest

/-- `valid_set`: every subset passes `validSubset`. -/
def valid_set (sets : List (List SudokuValue)) : Bool := sets.all validSubset

/-- Row `r` of the grid, in column order. -/
def Sudoku.rowCells (g : Sudoku) (r : Nat) : List SudokuValue :=
  (List.range g.order).map fun c => g.cell (r * g.order + c)

/-- Column `c` of the grid, in row order. -/
def Sudoku.colCells (g : Sudoku) (c : Nat) : List SudokuValue :=
  (List.range g.order).map fun r => g.cell (r * g.order + c)

/-- Box (`exact_chunks((cell_size, cell_size))` chunk) number `k`, cells in
row-major order; the chunks tile the grid with `order / cell_size` chunks
per chunk-row. -/
def Sudoku.boxCells (g : Sudoku) (k : Nat) : List SudokuValue :=
  let cs := g.cell_size
  let perRow := g.order / cs
  ((List.range cs).map fun i =>
    (List.range cs).map fun j =>
      g.cell ((k / perRow * cs + i) * g.order + (k % perRow * cs + j))).flatten

/-- All rows, as iterated by `self.0.rows()`. -/
def Sudoku.rows (g : Sudoku) : List (List SudokuValue) :=
  (List.range g.order).map g.rowCells

/-- All columns, as iterated by `self.0.columns()`. -/
def Sudoku.cols (g : Sudoku) : List (List SudokuValue) :=
  (List.range g.order).map g.colCells

/-- All boxes, as iterated by `self.0.exact_chunks((cell_size, cell_size))`. -/
def Sudoku.boxes (g : Sudoku) : List (List SudokuValue) :=
  let perRow := g.order / g.cell_size
  (List.range (perRow * perRow)).map g.boxCells

/-- `Sudoku::valid`. -/
def Sudoku.valid (g : Sudoku) : Bool :=
  valid_set g.rows && valid_set g.cols && valid_set g.boxes

/-- `Sudoku::solved`. -/
def Sudoku.solved (g : Sudoku) : Bool := g.filled && g.valid

/-- Write value `v` at flat index `i` (`*sudoku.0.get_mut(ix).unwrap() = v`). -/
def Sudoku.set (g : Sudoku) (i : Nat) (v : SudokuValue) : Sudoku :=
  { g with data := g.data.set i v }

/-- Number of empty cells; bounds the recursion depth of the solvers. -/
def Sudoku.emptyCount (g : Sudoku) : Nat := g.data.countP fun v => v.isNone

/-! ### Parsing (`impl FromStr for SudokuValue` / `impl FromStr for Sudoku`) -/

/-- `str::parse::<NonZeroU8>` on a single one-byte character: succeeds
exactly on the characters `'1'` through `'9'` (ASCII codes 49 to 57;
`"0"` parses to zero, which `NonZeroU8` rejects; everything else is an
invalid digit). -/
def parseDigit (c : Char) : Option Nat :=
  if 49 ≤ c.toNat ∧ c.toNat ≤ 57 then some (c.toNat - 48) else none

/-- `impl FromStr for SudokuValue` applied to one character, as produced by
`c.encode_utf8(&mut buffer)`: `assert_eq!(s.len(), 1)` panics (`none`) when
the character is not a single UTF-8 byte; `"."` is the empty cell; anything
else is parsed as a `NonZeroU8`, an `Except.error` on failure. -/
def SudokuValue.from_str (c : Char) : Option (Except Unit SudokuValue) :=
  if c.utf8Size ≠ 1 then none
  else if c = '.' then some (.ok none)
  else match parseDigit c with
    | some v => some (.ok (some v))
    | none => some (.error ())

/-- `s.chars().map(...).collect::<Result<Vec<_>, _>>()`: characters are
processed left to right; the first panic (`none`) or parse error stops the
traversal. -/
def collectValues : List Char → Option (Except Unit (List SudokuValue))
  | [] => some (.ok [])
  | c :: cs =>
    match SudokuValue.from_str c with
    | none => none
    | some (.error e) => some (.error e)
    | some (.ok v) =>
      match collectValues cs with
      | none => none
      | some (.error e) => some (.error e)
      | some (.ok vs) => some (.ok (v :: vs))

/-- `Sudoku::from_order_vec`: panics (`none`) unless `order` is one of the
squares `x * x` for `x` in `2..16` and `values.len() == order * order`. -/
def fromOrderVec (order : Nat) (values : List SudokuValue) : Option Sudoku :=
  if ((List.range' 2 14).any fun x => x * x == order)
      && (values.length == order * order)
  then some ⟨order, values⟩ else none

/-- The byte length `s.len()` of the input string. -/
def strByteLen (s : List Char) : Nat := (s.map Char.utf8Size).sum

/-- `impl FromStr for Sudoku`: `assert!` panics (`none`) unless the byte
length is `4 * 4` or `9 * 9`; then the characters are collected, the order
is chosen by the number of parsed values (`unreachable!` otherwise), and
`from_order_vec` builds the grid. -/
def Sudoku.from_str (s : List Char) : Option (Except Unit Sudoku) :=
  if strByteLen s = 4 * 4 ∨ strByteLen s = 9 * 9 then
    match collectValues s with
    | none => none
    | some (.error e) => some (.error e)
    | some (.ok vals) =>
      match vals.length with
      | 16 => (fromOrderVec 4 vals).map .ok
      | 81 => (fromOrderVec 9 vals).map .ok
      | _ => none
  else none

/-! ### Augmented grid (src/sudoku/solve.rs) -/

/-- `Result<Sudoku, Sudoku>`: `Ok` is a solved grid, `Err` the failure grid. -/
abbrev SudokuResult := Except Sudoku Sudoku

/-- `AugmentedValue`: a decided digit or the set of still-possible digits. -/
inductive AugmentedValue where
  | Fixed (v : Nat)
  | Possible (s : Finset Nat)
deriving DecidableEq

/-- `AugmentedValue::is_fixed`. -/
def AugmentedValue.is_fixed : AugmentedValue → Bool
  | .Fixed _ => true
  | .Possible _ => false

/-- `AugmentedValue::remove`: removing from a `Fixed` cell does nothing;
from a `Possible` cell it erases the value from the candidate set. -/
def AugmentedValue.remove : AugmentedValue → Nat → AugmentedValue
  | .Fixed v, _ => .Fixed v
  | .Possible s, v => .Possible (s.erase v)

/-- `AugmentedSudoku`: the cell size and order are carried alongside the
`order × order` data array (stored row-major as a flat list). -/
structure AugmentedSudoku where
  cell_size : Nat
  order : Nat
  data : List AugmentedValue
deriving DecidableEq

/-- Map a function receiving the flat index over a list, indices starting
at `n`; models `map_inplace` over a selected region via a conditional. -/
def mapIdxFrom (f : Nat → AugmentedValue → AugmentedValue) :
    Nat → List AugmentedValue → List AugmentedValue
  | _, [] => []
  | n, c :: cs => f n c :: mapIdxFrom f (n + 1) cs

/-- Index of the first element satisfying `p`, counting from `n`; models
`indexed_iter().find`. -/
def findIdxAux {α : Type} (p : α → Bool) : List α → Nat → Option Nat
  | [], _ => none
  | c :: cs, n => if p c then some n else findIdxAux p cs (n + 1)

/-- Index of the first empty cell, as found by
`indexed_iter().find(|(_, value)| value.is_none())` in `naive_dfs`. -/
def Sudoku.findFirstEmpty (g : Sudoku) : Option Nat :=
  findIdxAux (fun v => v.isNone) g.data 0

/-- The `(index, value)` pairs of the `Fixed` cells, in scan order
(`indexed_iter().filter_map(...)` in `prune_possible`). -/
def fixedAux : List AugmentedValue → Nat → List (Nat × Nat)
  | [], _ => []
  | .Fixed v :: cs, n => (n, v) :: fixedAux cs (n + 1)
  | .Possible _ :: cs, n => fixedAux cs (n + 1)

/-- `AugmentedSudoku::remove_value`: removes `value` from the row, the
column and the `exact_chunks` box containing flat index `ix`, by three
passes over the data (`row_mut`, `column_mut`, `exact_chunks_mut.nth`). -/
def AugmentedSudoku.remove_value (a : AugmentedSudoku) (ix : Nat) (value : Nat) :
    AugmentedSudoku :=
  let row := ix / a.order
  let col := ix % a.order
  let chunk := row / a.cell_size * a.cell_size + col / a.cell_size
  let perRow := a.order / a.cell_size
  let d1 := mapIdxFrom
    (fun j c => if j / a.order = row then c.remove value else c) 0 a.data
  let d2 := mapIdxFrom
    (fun j c => if j % a.order = col then c.remove value else c) 0 d1
  let d3 := mapIdxFrom
    (fun j c =>
      if j / a.order / a.cell_size = chunk / perRow ∧
          j % a.order / a.cell_size = chunk % perRow
      then c.remove value else c) 0 d2
  { a with data := d3 }

/-- Overwrite the cell at flat index `ix`. -/
def AugmentedSudoku.setCell (a : AugmentedSudoku) (ix : Nat) (c : AugmentedValue) :
    AugmentedSudoku :=
  { a with data := a.data.set ix c }

/-- `AugmentedSudoku::fix_value_inplace` (also the body of `fix_value`,
which clones first; cloning is implicit in the functional model): the cell
becomes `Fixed(value)` and `value` is removed from its row, column and box. -/
def AugmentedSudoku.fix_value (a : AugmentedSudoku) (ix : Nat) (value : Nat) :
    AugmentedSudoku :=
  (a.setCell ix (.Fixed value)).remove_value ix value

/-- `AugmentedSudoku::prune_possible`: collect the fixed cells, then remove
each fixed value from the peers of its cell. -/
def AugmentedSudoku.prune_possible (a : AugmentedSudoku) : AugmentedSudoku :=
  (fixedAux a.data 0).foldl (fun b p => b.remove_value p.1 p.2) a

/-- `impl From<AugmentedSudoku> for Sudoku`: `Fixed` becomes a digit,
`Possible` becomes an empty cell. -/
def AugmentedSudoku.toSudoku (a : AugmentedSudoku) : Sudoku :=
  ⟨a.order, a.data.map fun c =>
    match c with
    | .Fixed v => some v
    | .Possible _ => none⟩

/-- `impl From<Sudoku> for AugmentedSudoku`: a filled cell becomes `Fixed`,
an empty cell gets the full candidate set
`(1..=order as u8).filter_map(NonZeroU8::new)`, i.e. `1..=(order % 256)`. -/
def AugmentedSudoku.ofSudoku (g : Sudoku) : AugmentedSudoku :=
  { cell_size := g.cell_size
    order := g.order
    data := g.data.map fun val =>
      match val with
      | some v => .Fixed v
      | none => .Possible (Finset.Icc 1 (g.order % 256)) }

/-- Number of non-`Fixed` cells; bounds the recursion depth of `dfs_impl`
and `sorted_dfs_impl` (each call fixes one `Possible` cell). -/
def AugmentedSudoku.countNonFixed (a : AugmentedSudoku) : Nat :=
  a.data.countP fun c => !c.is_fixed

/-- The iteration order used for `for value in possible` over the
`HashSet`: the source's hash order is unspecified, the model fixes it to
ascending order (an insertion sort, lifted to the multiset quotient). -/
def possibleSort (s : Finset Nat) : List Nat :=
  Quotient.liftOn s.val (List.insertionSort (· ≤ ·)) fun a b h =>
    List.eq_of_perm_of_sorted
      ((List.perm_insertionSort _ a).trans (h.trans (List.perm_insertionSort _ b).symm))
      (List.sorted_insertionSort _ a) (List.sorted_insertionSort _ b)

/-! ### naive_dfs -/

/-- One iteration of the `for value in 1..=order as u8` loop of
`naive_dfs`: an `Ok` result short-circuits (the `propagate_ok!` macro);
otherwise the cell at `ix` is overwritten with `value` and, if the whole
grid is still valid, the recursion (`next`) runs, its `Err` payload
becoming the loop's grid for the next iteration. -/
def naiveStep (next : Sudoku → SudokuResult) (ix : Nat)
    (acc : SudokuResult) (value : Nat) : SudokuResult :=
  match acc with
  | .ok g => .ok g
  | .error s =>
    let s1 := s.set ix (some value)
    if s1.valid then next s1 else .error s1

/-- `naive_dfs`, with fuel: find the first empty cell (if none, the grid is
complete: `Ok` when solved, `Err` otherwise), try each digit, and after the
loop clear the cell and report `Err`. -/
def naiveGo : Nat → Sudoku → SudokuResult
  | 0 => fun s => .error s
  | f + 1 => fun s =>
    match s.findFirstEmpty with
    | none => if s.solved then .ok s else .error s
    | some ix =>
      match (List.range' 1 (s.order % 256)).foldl (naiveStep (naiveGo f) ix) (.error s) with
      | .ok g => .ok g
      | .error t => .error (t.set ix none)

/-- `pub fn naive_dfs`: the recursion depth is bounded by the number of
empty cells (each recursive call has one fewer; `naiveGo_fuel` below shows
the supplied fuel is sufficient). -/
def naive_dfs (g : Sudoku) : SudokuResult := naiveGo (g.emptyCount + 1) g

/-! ### dfs -/

/-- The first non-fixed cell with its value, as found by
`indexed_iter().find(|(_, value)| !value.is_fixed())`. -/
def AugmentedSudoku.findFirstNonFixed (a : AugmentedSudoku) :
    Option (Nat × AugmentedValue) :=
  (findIdxAux (fun c => !c.is_fixed) a.data 0).map fun i =>
    (i, a.data.getD i (.Fixed 0))

/-- `dfs_impl`, with fuel; `some` is `ControlFlow::Break` (a solved grid),
`none` is `ControlFlow::Continue` (exhausted). When every cell is `Fixed`
the grid is reported solved without re-validation. The `Fixed` case of the
found cell is the source's `unreachable!()` (the found cell satisfies
`!is_fixed`); it is a dead branch. -/
def dfsGo : Nat → AugmentedSudoku → Option Sudoku
  | 0 => fun _ => none
  | f + 1 => fun a =>
    match a.findFirstNonFixed with
    | none => some a.toSudoku
    | some (ix, c) =>
      match c with
      | .Fixed _ => none
      | .Possible possible =>
        (possibleSort possible).foldl (fun acc value =>
          match acc with
          | some g => some g
          | none => dfsGo f (a.fix_value ix value)) none

/-- `pub fn dfs`: build the augmented grid, propagate once, search; on
`Continue` the original grid (`orig`) is returned as the `Err` payload. -/
def dfs (g : Sudoku) : SudokuResult :=
  let a := (AugmentedSudoku.ofSudoku g).prune_possible
  match dfsGo (a.countNonFixed + 1) a with
  | none => .error g
  | some s => .ok s

/-! ### sorted_dfs -/

/-- `usize::MAX`, the key given to `Fixed` cells in `min_by_key`. -/
def usizeMax : Nat := 2 ^ 64 - 1

/-- The `min_by_key` key: the candidate count for `Possible`, `usize::MAX`
for `Fixed`. -/
def keyOf : AugmentedValue → Nat
  | .Possible s => s.card
  | .Fixed _ => usizeMax

/-- The fold underlying `Iterator::min_by_key`: the current minimum is
replaced only by a strictly smaller key, so the first minimum wins. -/
def minAux : List AugmentedValue → Nat → Option (Nat × AugmentedValue) →
    Option (Nat × AugmentedValue)
  | [], _, acc => acc
  | c :: cs, n, acc =>
    minAux cs (n + 1)
      (match acc with
       | none => some (n, c)
       | some (j, b) => if keyOf c < keyOf b then some (n, c) else some (j, b))

/-- `sudoku.data.indexed_iter().min_by_key(...)` from `sorted_dfs_impl`. -/
def AugmentedSudoku.selectMinCell (a : AugmentedSudoku) :
    Option (Nat × AugmentedValue) :=
  minAux a.data 0 none

/-- `possible.into_iter().next().unwrap()` on a single-element set. -/
def theOnly (s : Finset Nat) : Nat := (possibleSort s).headD 0

/-- `sorted_dfs_impl`, with fuel. The state component models the `&mut`
argument: the single-candidate fast path mutates in place, the branching
path recurses on clones (`fix_value`) whose mutations are discarded. -/
def sortedGo : Nat → AugmentedSudoku → AugmentedSudoku × Option Sudoku
  | 0 => fun a => (a, none)
  | f + 1 => fun a =>
    match a.selectMinCell with
    | none => (a, some a.toSudoku)
    | some (ix, c) =>
      match c with
      | .Fixed _ => (a, some a.toSudoku)
      | .Possible possible =>
        if possible.card = 1 then
          sortedGo f (a.fix_value ix (theOnly possible))
        else
          match (possibleSort possible).foldl (fun acc value =>
              match acc with
              | some g => some g
              | none => (sortedGo f (a.fix_value ix value)).2) none with
          | some g => (a, some g)
          | none => (a, none)

/-- `pub fn sorted_dfs`: on `Continue`, the `Err` payload is the final
(mutated) augmented grid converted back to a `Sudoku`. -/
def sorted_dfs (g : Sudoku) : SudokuResult :=
  let a := (AugmentedSudoku.ofSudoku g).prune_possible
  match sortedGo (a.countNonFixed + 1) a with
  | (a2, none) => .error a2.toSudoku
  | (_, some s) => .ok s

/-! ### Derived predicates used by the claims -/

deriving instance DecidableEq for Except

/-- Cell of an augmented grid at flat index `j` (in-bounds on the shapes
the program constructs; the default is irrelevant). -/
def AugmentedSudoku.cellAt (a : AugmentedSudoku) (j : Nat) : AugmentedValue :=
  a.data.getD j (.Fixed 0)

/-- The region `remove_value ix` touches, as the union of its three passes
(row, column, and the `exact_chunks` box decoded from the chunk number). -/
def remCond (order cs ix j : Nat) : Prop :=
  j / order = ix / order ∨ j % order = ix % order ∨
    (j / order / cs = (ix / order / cs * cs + ix % order / cs) / (order / cs) ∧
      j % order / cs = (ix / order / cs * cs + ix % order / cs) % (order / cs))

instance (order cs ix j : Nat) : Decidable (remCond order cs ix j) := by
  unfold remCond; infer_instance

/-- Two cells at flat indices `ix` and `j` are peers: same row, same
column, or same `cell_size × cell_size` box. -/
def Peer (order cs ix j : Nat) : Prop :=
  j / order = ix / order ∨ j % order = ix % order ∨
    (j / order / cs = ix / order / cs ∧ j % order / cs = ix % order / cs)

instance (order cs ix j : Nat) : Decidable (Peer order cs ix j) := by
  unfold Peer; infer_instance

/-- Shape well-formedness of an augmented grid: the derived attributes
match the data (the program's invariant from section 3 of the spec). -/
def AugmentedSudoku.WF (a : AugmentedSudoku) : Prop :=
  1 ≤ a.cell_size ∧ a.cell_size * a.cell_size = a.order ∧
    a.data.length = a.order * a.order

instance (a : AugmentedSudoku) : Decidable a.WF := by
  unfold AugmentedSudoku.WF; infer_instance

/-- Some row of the grid contains a repeated non-empty digit. -/
def Sudoku.hasRowDup (g : Sudoku) : Bool :=
  (List.range g.order).any fun r => !(validSubset (g.rowCells r))

/-- Some cell's candidate set is empty (a contradiction). -/
def AugmentedSudoku.hasEmptyPossible (a : AugmentedSudoku) : Bool :=
  a.data.any fun c => decide (c = .Possible ∅)

/-! ### Concrete grids used by counterexamples and witnesses -/

/-- The 4×4 grid whose sixteen cells are all the digit 1: parseable
(sixteen `'1'` characters), completely filled, and invalid. -/
def allOnes4 : Sudoku := ⟨4, List.replicate 16 (some 1)⟩

/-- A solved 4×4 grid. -/
def solvedGrid4 : Sudoku :=
  ⟨4, [some 1, some 2, some 3, some 4,
       some 3, some 4, some 1, some 2,
       some 2, some 1, some 4, some 3,
       some 4, some 3, some 2, some 1]⟩

/-- A 4×4 grid whose cell (0,3) has an empty candidate set after the
initial propagation: its row holds 1, 2, 3 and its column holds 4. -/
def contraGrid4 : Sudoku :=
  ⟨4, [some 1, some 2, some 3, none,
       none, none, none, some 4] ++ List.replicate 8 none⟩

/-- A 4×4 grid with the digit 1 twice in its first row. -/
def dupGrid4 : Sudoku := ⟨4, some 1 :: some 1 :: List.replicate 14 none⟩

/-- A character that parses as a cell: `'.'` or a digit `'1'`-`'9'`. -/
def goodChar (c : Char) : Bool := c == '.' || (49 ≤ c.toNat && c.toNat ≤ 57)

/-- Sixteen `'1'` characters: the text of `allOnes4`. -/
def ones16 : List Char := List.replicate 16 '1'

/-- Sixteen `'.'` characters: an empty 4×4 puzzle text. -/
def dots16 : List Char := List.replicate 16 '.'

/-- A `'9'` followed by fifteen `'.'`: a length-16 text carrying a digit
above the order 4. -/
def nine15 : List Char := '9' :: List.replicate 15 '.'

/-- A `'0'` followed by fifteen `'.'`: a length-16 text whose first
character is an invalid digit. -/
def zero15 : List Char := '0' :: List.replicate 15 '.'

/-- A small augmented grid exercising the minimum-remaining-values
selection: the minimum candidate count 1 first occurs at index 2. -/
def augSample : AugmentedSudoku :=
  ⟨2, 4, [.Fixed 1, .Possible {1, 2}, .Possible {3}, .Possible {2, 3}]⟩

/-! ## Helper lemmas -/

theorem mapIdxFrom_length (f : Nat → AugmentedValue → AugmentedValue) :
    ∀ (n : Nat) (l : List AugmentedValue), (mapIdxFrom f n l).length = l.length := by
  intro n l
  induction l generalizing n with
  | nil => rfl
  | cons c cs ih => simp [mapIdxFrom, ih]

theorem mapIdxFrom_getElem? (f : Nat → AugmentedValue → AugmentedValue) :
    ∀ (n : Nat) (l : List AugmentedValue) (j : Nat),
      (mapIdxFrom f n l)[j]? = (l[j]?).map (f (n + j)) := by
  intro n l
  induction l generalizing n with
  | nil => intro j; simp [mapIdxFrom]
  | cons c cs ih =>
    intro j
    cases j with
    | zero => simp [mapIdxFrom]
    | succ j' =>
      simp only [mapIdxFrom, List.getElem?_cons_succ]
      rw [ih (n + 1) j']
      have : n + 1 + j' = n + (j' + 1) := by omega
      rw [this]

theorem findIdxAux_some {α : Type} (p : α → Bool) :
    ∀ (l : List α) (n i : Nat), findIdxAux p l n = some i →
      ∃ k, i = n + k ∧ ∃ c, l[k]? = some c ∧ p c = true := by
  intro l
  induction l with
  | nil => intro n i h; simp [findIdxAux] at h
  | cons c cs ih =>
    intro n i h
    by_cases hc : p c
    · refine ⟨0, ?_, c, by simp, hc⟩
      simp [findIdxAux, hc] at h
      omega
    · simp only [findIdxAux, hc, if_neg] at h
      simp only [Bool.false_eq_true, if_false] at h
      obtain ⟨k, hk, c', hc', hp⟩ := ih (n + 1) i h
      exact ⟨k + 1, by omega, c', by simpa using hc', hp⟩

theorem findIdxAux_none {α : Type} (p : α → Bool) :
    ∀ (l : List α) (n : Nat), findIdxAux p l n = none → ∀ c ∈ l, p c = false := by
  intro l
  induction l with
  | nil => intro n _ c hc; simp at hc
  | cons c cs ih =>
    intro n h c' hc'
    by_cases hc : p c
    · simp [findIdxAux, hc] at h
    · simp only [findIdxAux, hc, Bool.false_eq_true, if_false] at h
      rcases List.mem_cons.mp hc' with rfl | hmem
      · exact Bool.eq_false_iff.mpr hc
      · exact ih (n + 1) h c' hmem

theorem remove_Fixed (v w : Nat) : (AugmentedValue.Fixed v).remove w = .Fixed v := rfl

theorem remove_Possible (s : Finset Nat) (w : Nat) :
    (AugmentedValue.Possible s).remove w = .Possible (s.erase w) := rfl

theorem remove_remove_self (c : AugmentedValue) (v : Nat) :
    (c.remove v).remove v = c.remove v := by
  cases c with
  | Fixed w => rfl
  | Possible s => simp [AugmentedValue.remove, Finset.erase_idem]

theorem remove_comm (c : AugmentedValue) (v w : Nat) :
    (c.remove v).remove w = (c.remove w).remove v := by
  cases c with
  | Fixed u => rfl
  | Possible s => simp [AugmentedValue.remove, Finset.erase_right_comm]

theorem is_fixed_remove (c : AugmentedValue) (v : Nat) :
    (c.remove v).is_fixed = c.is_fixed := by
  cases c <;> rfl

theorem ite_remove_comm (P Q : Prop) [Decidable P] [Decidable Q]
    (c : AugmentedValue) (v : Nat) :
    (if Q then (if P then c.remove v else c).remove v
      else (if P then c.remove v else c)) =
      if P ∨ Q then c.remove v else c := by
  by_cases hP : P <;> by_cases hQ : Q <;>
    simp [hP, hQ, remove_remove_self]

theorem remove_value_order (a : AugmentedSudoku) (ix v : Nat) :
    (a.remove_value ix v).order = a.order := rfl

theorem remove_value_cell_size (a : AugmentedSudoku) (ix v : Nat) :
    (a.remove_value ix v).cell_size = a.cell_size := rfl

theorem remove_value_length (a : AugmentedSudoku) (ix v : Nat) :
    (a.remove_value ix v).data.length = a.data.length := by
  simp [AugmentedSudoku.remove_value, mapIdxFrom_length]

theorem remove_value_getElem? (a : AugmentedSudoku) (ix v j : Nat) :
    (a.remove_value ix v).data[j]? =
      (a.data[j]?).map fun c =>
        if remCond a.order a.cell_size ix j then c.remove v else c := by
  simp only [AugmentedSudoku.remove_value, mapIdxFrom_getElem?, Nat.zero_add,
    Option.map_map]
  cases h : a.data[j]? with
  | none => rfl
  | some c =>
    simp only [Option.map_some', Function.comp]
    congr 1
    rw [ite_remove_comm, ite_remove_comm]
    unfold remCond
    exact if_congr Iff.rfl rfl rfl

theorem aug_ext (a b : AugmentedSudoku) (h1 : a.cell_size = b.cell_size)
    (h2 : a.order = b.order) (h3 : a.data = b.data) : a = b := by
  cases a; cases b; simp_all

theorem remove_value_comm (a : AugmentedSudoku) (i₁ v₁ i₂ v₂ : Nat) :
    (a.remove_value i₁ v₁).remove_value i₂ v₂ =
      (a.remove_value i₂ v₂).remove_value i₁ v₁ := by
  refine aug_ext _ _ rfl rfl ?_
  apply List.ext_getElem?
  intro j
  rw [remove_value_getElem? (a.remove_value i₁ v₁) i₂ v₂ j,
    remove_value_order, remove_value_cell_size,
    remove_value_getElem? a i₁ v₁ j,
    remove_value_getElem? (a.remove_value i₂ v₂) i₁ v₁ j,
    remove_value_order, remove_value_cell_size,
    remove_value_getElem? a i₂ v₂ j]
  cases a.data[j]? with
  | none => rfl
  | some c =>
    by_cases h1 : remCond a.order a.cell_size i₁ j <;>
      by_cases h2 : remCond a.order a.cell_size i₂ j <;>
        simp [h1, h2, remove_comm]

theorem remove_value_idem (a : AugmentedSudoku) (i v : Nat) :
    (a.remove_value i v).remove_value i v = a.remove_value i v := by
  refine aug_ext _ _ rfl rfl ?_
  apply List.ext_getElem?
  intro j
  rw [remove_value_getElem? (a.remove_value i v) i v j,
    remove_value_order, remove_value_cell_size,
    remove_value_getElem? a i v j]
  cases a.data[j]? with
  | none => rfl
  | some c =>
    by_cases h : remCond a.order a.cell_size i j <;> simp [h, remove_remove_self]

theorem fixedAux_mapIdxFrom (φ : Nat → AugmentedValue → AugmentedValue)
    (hF : ∀ j v, φ j (.Fixed v) = .Fixed v)
    (hP : ∀ j s, ∃ t, φ j (.Possible s) = .Possible t) :
    ∀ (l : List AugmentedValue) (n : Nat), fixedAux (mapIdxFrom φ n l) n = fixedAux l n := by
  intro l
  induction l with
  | nil => intro n; rfl
  | cons c cs ih =>
    intro n
    cases c with
    | Fixed v => simp [mapIdxFrom, fixedAux, hF, ih]
    | Possible s =>
      obtain ⟨t, ht⟩ := hP n s
      simp [mapIdxFrom, fixedAux, ht, ih]

theorem fixedAux_condRemove (C : Nat → Prop) [DecidablePred C] (v : Nat)
    (l : List AugmentedValue) (n : Nat) :
    fixedAux (mapIdxFrom (fun j c => if C j then c.remove v else c) n l) n =
      fixedAux l n := by
  apply fixedAux_mapIdxFrom
  · intro j w; split <;> rfl
  · intro j s
    by_cases h : C j
    · exact ⟨s.erase v, by simp [h, AugmentedValue.remove]⟩
    · exact ⟨s, by simp [h]⟩

theorem fixedAux_remove_value (a : AugmentedSudoku) (ix v : Nat) :
    fixedAux (a.remove_value ix v).data 0 = fixedAux a.data 0 := by
  simp only [AugmentedSudoku.remove_value]
  rw [fixedAux_condRemove, fixedAux_condRemove, fixedAux_condRemove]

theorem foldl_remove_pass (L : List (Nat × Nat)) :
    ∀ (b : AugmentedSudoku) (q : Nat × Nat),
      L.foldl (fun b p => b.remove_value p.1 p.2) (b.remove_value q.1 q.2) =
        (L.foldl (fun b p => b.remove_value p.1 p.2) b).remove_value q.1 q.2 := by
  induction L with
  | nil => intro b q; rfl
  | cons x xs ih =>
    intro b q
    simp only [List.foldl_cons]
    rw [remove_value_comm, ih]

theorem foldl_remove_twice (L : List (Nat × Nat)) :
    ∀ (b : AugmentedSudoku),
      L.foldl (fun b p => b.remove_value p.1 p.2)
          (L.foldl (fun b p => b.remove_value p.1 p.2) b) =
        L.foldl (fun b p => b.remove_value p.1 p.2) b := by
  induction L with
  | nil => intro b; rfl
  | cons x xs ih =>
    intro b
    simp only [List.foldl_cons]
    rw [foldl_remove_pass, ih, ← foldl_remove_pass, remove_value_idem]

theorem fixedAux_foldl (L : List (Nat × Nat)) :
    ∀ (b : AugmentedSudoku),
      fixedAux (L.foldl (fun b p => b.remove_value p.1 p.2) b).data 0 =
        fixedAux b.data 0 := by
  induction L with
  | nil => intro b; rfl
  | cons x xs ih =>
    intro b
    simp only [List.foldl_cons]
    rw [ih, fixedAux_remove_value]

theorem prune_possible_idem (a : AugmentedSudoku) :
    a.prune_possible.prune_possible = a.prune_possible := by
  unfold AugmentedSudoku.prune_possible
  rw [fixedAux_foldl, foldl_remove_twice]

/-- Claim C7: initial constraint propagation is idempotent. For every
Augmented Grid constructed from a Grid, running `prune_possible` twice
yields the same grid, hence the same candidate sets in every cell, as
running it once. -/
theorem c7_prune_idempotent (g : Sudoku) :
    ((AugmentedSudoku.ofSudoku g).prune_possible).prune_possible =
      (AugmentedSudoku.ofSudoku g).prune_possible :=
  prune_possible_idem _

theorem cellAt_eq (a : AugmentedSudoku) (j : Nat) (c : AugmentedValue)
    (h : a.data[j]? = some c) : a.cellAt j = c := by
  simp [AugmentedSudoku.cellAt, List.getD_eq_getElem?_getD, h]

/-- Claim C8: converting a grid with no empty cells to an Augmented Grid
and back yields the grid again. -/
theorem c8_to_grid_from_grid (g : Sudoku) (h : g.filled = true) :
    (AugmentedSudoku.ofSudoku g).toSudoku = g := by
  have hall : ∀ v ∈ g.data, v.isSome = true := by
    simpa [Sudoku.filled, List.all_eq_true] using h
  cases g with
  | mk od data =>
    simp only [AugmentedSudoku.toSudoku, AugmentedSudoku.ofSudoku, Sudoku.mk.injEq,
      List.map_map]
    refine ⟨trivial, ?_⟩
    have step : ∀ v ∈ data, ((fun c =>
        match c with
        | AugmentedValue.Fixed v => some v
        | AugmentedValue.Possible _ => none) ∘ fun val =>
        match val with
        | some v => AugmentedValue.Fixed v
        | none => AugmentedValue.Possible (Finset.Icc 1 (od % 256))) v = id v := by
      intro v hv
      obtain ⟨x, rfl⟩ := Option.isSome_iff_exists.mp (hall v hv)
      rfl
    rw [List.map_congr_left step, List.map_id]

/-- Claim C8 witness: the round trip on the concrete filled grid `solvedGrid4`. -/
theorem c8_witness : (AugmentedSudoku.ofSudoku solvedGrid4).toSudoku = solvedGrid4 :=
  c8_to_grid_from_grid solvedGrid4 (by decide)

theorem remCond_iff_peer (order cs ix j : Nat) (hcs : 1 ≤ cs)
    (hord : cs * cs = order) :
    remCond order cs ix j ↔ Peer order cs ix j := by
  have hcs0 : 0 < cs := hcs
  have horder0 : 0 < order := by
    have := Nat.mul_pos hcs0 hcs0
    omega
  have hcol : ix % order / cs < cs := by
    rw [Nat.div_lt_iff_lt_mul hcs0]
    have h1 : ix % order < order := Nat.mod_lt _ horder0
    omega
  have hperRow : order / cs = cs := by
    rw [← hord]
    exact Nat.mul_div_cancel_left cs hcs0
  have h1 : (ix / order / cs * cs + ix % order / cs) / (order / cs) =
      ix / order / cs := by
    rw [hperRow, Nat.mul_comm, Nat.mul_add_div hcs0, Nat.div_eq_of_lt hcol]
    omega
  have h2 : (ix / order / cs * cs + ix % order / cs) % (order / cs) =
      ix % order / cs := by
    rw [hperRow, Nat.mul_comm, Nat.mul_add_mod, Nat.mod_eq_of_lt hcol]
  unfold remCond Peer
  rw [h1, h2]

/-- Claim C5: `fix_value ix value` writes `Fixed value` at `ix`, applies
`remove value` to every peer of `ix` (which erases `value` from a
`Possible` candidate set and leaves a `Fixed` cell unchanged), and leaves
every cell that is neither `ix` nor a peer of `ix` untouched. -/
theorem c5_fix_value_spec (a : AugmentedSudoku) (ix value : Nat) (hwf : a.WF)
    (hix : ix < a.order * a.order) (j : Nat) (hj : j < a.order * a.order) :
    (a.fix_value ix value).cellAt j =
      if j = ix then .Fixed value
      else if Peer a.order a.cell_size ix j then (a.cellAt j).remove value
      else a.cellAt j := by
  obtain ⟨hcs, hord, hlen⟩ := hwf
  have hixlen : ix < a.data.length := by omega
  have hjlen : j < a.data.length := by omega
  have horder : (a.setCell ix (.Fixed value)).order = a.order := rfl
  have hcellsize : (a.setCell ix (.Fixed value)).cell_size = a.cell_size := rfl
  have hkey : (a.fix_value ix value).data[j]? =
      ((a.data.set ix (.Fixed value))[j]?).map
        (fun c => if remCond a.order a.cell_size ix j then c.remove value else c) := by
    rw [show a.fix_value ix value =
        (a.setCell ix (.Fixed value)).remove_value ix value from rfl,
      remove_value_getElem?, horder, hcellsize]
    rfl
  have hcell : a.data[j]? = some (a.cellAt j) := by
    simp [AugmentedSudoku.cellAt, List.getD_eq_getElem?_getD,
      List.getElem?_eq_getElem hjlen]
  by_cases hj_ix : j = ix
  · rw [if_pos hj_ix]
    rw [hj_ix] at hkey
    apply cellAt_eq
    rw [hj_ix, hkey, List.getElem?_set_eq_of_lt _ hixlen]
    simp only [Option.map_some']
    congr 1
    split <;> rfl
  · rw [if_neg hj_ix]
    apply cellAt_eq
    rw [hkey, List.getElem?_set_ne (fun hh => hj_ix hh.symm), hcell]
    simp only [Option.map_some']
    exact congrArg some
      (if_congr (remCond_iff_peer a.order a.cell_size ix j hcs hord) rfl rfl)

/-- Claim C5 witness: `fix_value` evaluated on a concrete well-formed
augmented grid, at the concrete peer cell 3 of cell 2. -/
theorem c5_witness :
    ((AugmentedSudoku.ofSudoku dupGrid4).fix_value 2 3).cellAt 3 =
      if (3 : Nat) = 2 then .Fixed 3
      else if Peer (AugmentedSudoku.ofSudoku dupGrid4).order
          (AugmentedSudoku.ofSudoku dupGrid4).cell_size 2 3 then
        ((AugmentedSudoku.ofSudoku dupGrid4).cellAt 3).remove 3
      else (AugmentedSudoku.ofSudoku dupGrid4).cellAt 3 :=
  c5_fix_value_spec (AugmentedSudoku.ofSudoku dupGrid4) 2 3 (by decide) (by decide)
    3 (by decide)

theorem minAux_spec :
    ∀ (l : List AugmentedValue) (n : Nat) (acc : Option (Nat × AugmentedValue))
      (i : Nat) (c : AugmentedValue),
      minAux l n acc = some (i, c) →
      (acc = some (i, c) ∨
        ∃ k, k < l.length ∧ i = n + k ∧ l[k]? = some c ∧
          (∀ (j : Nat) (d : AugmentedValue), acc = some (j, d) → keyOf c < keyOf d) ∧
          (∀ (m : Nat) (c' : AugmentedValue), m < k → l[m]? = some c' →
            keyOf c < keyOf c')) ∧
      (∀ (m : Nat) (c' : AugmentedValue), l[m]? = some c' → keyOf c ≤ keyOf c') ∧
      (∀ (j : Nat) (d : AugmentedValue), acc = some (j, d) → keyOf c ≤ keyOf d) := by
  intro l
  induction l with
  | nil =>
    intro n acc i c h
    simp only [minAux] at h
    refine ⟨Or.inl h, ?_, ?_⟩
    · intro m c' hm; simp at hm
    · intro j d hacc
      rw [h] at hacc
      cases hacc
      exact Nat.le_refl _
  | cons c₀ cs ih =>
    intro n acc i c h
    simp only [minAux] at h
    cases acc with
    | none =>
      obtain ⟨IH1, IH2, IH3⟩ := ih (n + 1) (some (n, c₀)) i c h
      have hle₀ : keyOf c ≤ keyOf c₀ := IH3 n c₀ rfl
      refine ⟨?_, ?_, ?_⟩
      · rcases IH1 with h' | ⟨k, hk, hik, hlk, hstrict, hearly⟩
        · cases h'
          exact Or.inr ⟨0, by simp, by omega, by simp, by simp,
            by intro m c' hm; omega⟩
        · refine Or.inr ⟨k + 1, by simp; omega, by omega, by simpa using hlk,
            by simp, ?_⟩
          intro m c' hm hmc
          cases m with
          | zero =>
            simp at hmc
            exact hmc ▸ hstrict n c₀ rfl
          | succ m' =>
            exact hearly m' c' (by omega) (by simpa using hmc)
      · intro m c' hm
        cases m with
        | zero =>
          simp at hm
          exact hm ▸ hle₀
        | succ m' => exact IH2 m' c' (by simpa using hm)
      · intro j d hacc; cases hacc
    | some p =>
      obtain ⟨j₀, b⟩ := p
      by_cases hlt : keyOf c₀ < keyOf b
      · simp only [hlt, if_pos] at h
        obtain ⟨IH1, IH2, IH3⟩ := ih (n + 1) (some (n, c₀)) i c h
        have hle₀ : keyOf c ≤ keyOf c₀ := IH3 n c₀ rfl
        refine ⟨?_, ?_, ?_⟩
        · rcases IH1 with h' | ⟨k, hk, hik, hlk, hstrict, hearly⟩
          · cases h'
            refine Or.inr ⟨0, by simp, by omega, by simp, ?_, by intro m c' hm; omega⟩
            intro j d hacc
            cases hacc
            exact hlt
          · refine Or.inr ⟨k + 1, by simp; omega, by omega, by simpa using hlk, ?_, ?_⟩
            · intro j d hacc
              cases hacc
              exact Nat.lt_trans (hstrict n c₀ rfl) hlt
            · intro m c' hm hmc
              cases m with
              | zero =>
                simp at hmc
                exact hmc ▸ hstrict n c₀ rfl
              | succ m' => exact hearly m' c' (by omega) (by simpa using hmc)
        · intro m c' hm
          cases m with
          | zero =>
            simp at hm
            exact hm ▸ hle₀
          | succ m' => exact IH2 m' c' (by simpa using hm)
        · intro j d hacc
          cases hacc
          exact Nat.le_trans hle₀ (Nat.le_of_lt hlt)
      · simp only [hlt, if_neg, if_false] at h
        obtain ⟨IH1, IH2, IH3⟩ := ih (n + 1) (some (j₀, b)) i c h
        have hleb : keyOf c ≤ keyOf b := IH3 j₀ b rfl
        have hble : keyOf b ≤ keyOf c₀ := Nat.le_of_not_lt hlt
        refine ⟨?_, ?_, ?_⟩
        · rcases IH1 with h' | ⟨k, hk, hik, hlk, hstrict, hearly⟩
          · exact Or.inl h'
          · refine Or.inr ⟨k + 1, by simp; omega, by omega, by simpa using hlk, ?_, ?_⟩
            · intro j d hacc
              cases hacc
              exact hstrict j₀ b rfl
            · intro m c' hm hmc
              cases m with
              | zero =>
                simp at hmc
                exact hmc ▸ Nat.lt_of_lt_of_le (hstrict j₀ b rfl) hble
              | succ m' => exact hearly m' c' (by omega) (by simpa using hmc)
        · intro m c' hm
          cases m with
          | zero =>
            simp at hm
            exact hm ▸ Nat.le_trans hleb hble
          | succ m' => exact IH2 m' c' (by simpa using hm)
        · intro j d hacc
          cases hacc
          exact hleb

/-- Claim C6: whenever the minimum-remaining-values scan of
`sorted_dfs_impl` (`selectMinCell`, the `min_by_key` over every cell,
invoked at every recursive step of `sortedGo`) selects a non-`Fixed` cell,
no non-`Fixed` cell of the grid has a strictly smaller candidate set, and
every non-`Fixed` cell occurring earlier in scan order has a strictly
larger candidate set (so among equal minima the first one in scan order is
selected). -/
theorem c6_sorted_min_spec (a : AugmentedSudoku) (ix : Nat) (s : Finset Nat)
    (h : a.selectMinCell = some (ix, .Possible s)) :
    a.data[ix]? = some (.Possible s) ∧
      ∀ j t, a.data[j]? = some (.Possible t) →
        s.card ≤ t.card ∧ (j < ix → s.card < t.card) := by
  obtain ⟨H1, H2, _⟩ := minAux_spec a.data 0 none ix (.Possible s) h
  rcases H1 with h' | ⟨k, hk, hik, hlk, _, hearly⟩
  · cases h'
  · have hixk : ix = k := by omega
    subst hixk
    refine ⟨hlk, ?_⟩
    intro j t hj
    refine ⟨H2 j (.Possible t) hj, ?_⟩
    intro hji
    exact hearly j (.Possible t) hji hj

/-- Claim C6 witness: on the concrete grid `augSample` the scan selects
cell 2 (the first cell whose candidate count is the minimum 1), and the
earlier non-`Fixed` cell 1 indeed has a strictly larger candidate set. -/
theorem c6_witness :
    augSample.data[2]? = some (.Possible {3}) ∧
      ({3} : Finset Nat).card ≤ ({1, 2} : Finset Nat).card ∧
        (1 < 2 → ({3} : Finset Nat).card < ({1, 2} : Finset Nat).card) :=
  ⟨(c6_sorted_min_spec augSample 2 {3} (by decide)).1,
    (c6_sorted_min_spec augSample 2 {3} (by decide)).2 1 {1, 2} (by decide)⟩

theorem possibleSort_empty : possibleSort ∅ = [] := rfl

theorem hasEmptyPossible_iff (a : AugmentedSudoku) :
    a.hasEmptyPossible = true ↔ ∃ j : Nat, a.data[j]? = some (AugmentedValue.Possible ∅) := by
  unfold AugmentedSudoku.hasEmptyPossible
  rw [List.any_eq_true]
  constructor
  · rintro ⟨c, hc, hdec⟩
    have hce : c = .Possible ∅ := of_decide_eq_true hdec
    subst hce
    obtain ⟨j, hj, hval⟩ := List.mem_iff_getElem.mp hc
    exact ⟨j, by rw [List.getElem?_eq_getElem hj, hval]⟩
  · rintro ⟨j, hj⟩
    obtain ⟨hlt, hv⟩ := List.getElem?_eq_some.mp hj
    exact ⟨a.data[j], List.getElem_mem hlt, by rw [hv]; simp⟩

theorem findFirstNonFixed_some (a : AugmentedSudoku) (ix : Nat) (c : AugmentedValue)
    (h : a.findFirstNonFixed = some (ix, c)) :
    a.data[ix]? = some c ∧ c.is_fixed = false := by
  unfold AugmentedSudoku.findFirstNonFixed at h
  cases hidx : findIdxAux (fun c => !c.is_fixed) a.data 0 with
  | none => rw [hidx] at h; simp at h
  | some i =>
    rw [hidx] at h
    simp only [Option.map_some'] at h
    obtain ⟨h1, h2⟩ := Prod.mk.injEq .. ▸ Option.some.inj h
    obtain ⟨k, hik, c', hk, hp⟩ := findIdxAux_some _ _ _ _ hidx
    have hike : i = k := by omega
    subst hike
    subst h1
    have hgd : a.data.getD i (.Fixed 0) = c' := by
      rw [List.getD_eq_getElem?_getD, hk]
      rfl
    rw [hgd] at h2
    subst h2
    exact ⟨hk, by simpa using hp⟩

theorem findFirstNonFixed_none (a : AugmentedSudoku)
    (h : a.findFirstNonFixed = none) : ∀ c ∈ a.data, c.is_fixed = true := by
  unfold AugmentedSudoku.findFirstNonFixed at h
  cases hidx : findIdxAux (fun c => !c.is_fixed) a.data 0 with
  | none =>
    intro c hc
    have := findIdxAux_none _ _ _ hidx c hc
    simpa using this
  | some i => rw [hidx] at h; simp at h

theorem emptyPossible_fix (a : AugmentedSudoku) (ix v j : Nat)
    (hne : j ≠ ix) (hj : a.data[j]? = some (AugmentedValue.Possible ∅)) :
    (a.fix_value ix v).data[j]? = some (AugmentedValue.Possible ∅) := by
  rw [show a.fix_value ix v = (a.setCell ix (.Fixed v)).remove_value ix v from rfl,
    remove_value_getElem?,
    show (a.setCell ix (.Fixed v)).data = a.data.set ix (.Fixed v) from rfl,
    List.getElem?_set_ne (fun hh => hne hh.symm), hj]
  simp only [Option.map_some']
  congr 1
  split <;> simp [AugmentedValue.remove, Finset.erase_empty]

theorem foldl_dfs_none (f : Nat) (a : AugmentedSudoku) (ix : Nat) (L : List Nat)
    (h : ∀ v ∈ L, dfsGo f (a.fix_value ix v) = none) :
    L.foldl (fun acc value =>
      match acc with
      | some g => some g
      | none => dfsGo f (a.fix_value ix value)) none = none := by
  induction L with
  | nil => rfl
  | cons x xs ih =>
    simp only [List.foldl_cons]
    rw [h x (by simp)]
    exact ih fun v hv => h v (by simp [hv])

theorem dfsGo_none (f : Nat) : ∀ (a : AugmentedSudoku),
    a.hasEmptyPossible = true → dfsGo f a = none := by
  induction f with
  | zero => intro a _; rfl
  | succ f ih =>
    intro a h
    obtain ⟨j, hj⟩ := (hasEmptyPossible_iff a).mp h
    cases hfind : a.findFirstNonFixed with
    | none =>
      obtain ⟨hlt, hv⟩ := List.getElem?_eq_some.mp hj
      have := findFirstNonFixed_none a hfind a.data[j] (List.getElem_mem hlt)
      rw [hv] at this
      simp [AugmentedValue.is_fixed] at this
    | some p =>
      obtain ⟨ix, c⟩ := p
      obtain ⟨hcell, hnf⟩ := findFirstNonFixed_some a ix c hfind
      cases c with
      | Fixed w => simp [AugmentedValue.is_fixed] at hnf
      | Possible s =>
        simp only [dfsGo, hfind]
        by_cases hjix : j = ix
        · subst hjix
          rw [hj] at hcell
          have hs : s = ∅ := by
            have h2 := Option.some.inj hcell
            injection h2 with h3
            exact h3.symm
          subst hs
          rw [possibleSort_empty]
          rfl
        · exact foldl_dfs_none f a ix _ fun v _ =>
            ih _ ((hasEmptyPossible_iff _).mpr ⟨j, emptyPossible_fix a ix v j hjix hj⟩)

theorem minAux_eq_none (l : List AugmentedValue) :
    ∀ (n : Nat) (acc : Option (Nat × AugmentedValue)),
      minAux l n acc = none → acc = none ∧ l = [] := by
  induction l with
  | nil => intro n acc h; exact ⟨h, rfl⟩
  | cons c cs ih =>
    intro n acc h
    simp only [minAux] at h
    obtain ⟨h1, -⟩ := ih _ _ h
    cases acc with
    | none => simp at h1
    | some p =>
      obtain ⟨j, b⟩ := p
      by_cases hlt : keyOf c < keyOf b <;> simp [hlt] at h1

theorem sortedGo_empty (f : Nat) (a : AugmentedSudoku)
    (h : a.hasEmptyPossible = true) : sortedGo (f + 1) a = (a, none) := by
  obtain ⟨j, hj⟩ := (hasEmptyPossible_iff a).mp h
  cases hsel : a.selectMinCell with
  | none =>
    obtain ⟨-, hnil⟩ := minAux_eq_none a.data 0 none hsel
    rw [hnil] at hj
    simp at hj
  | some p =>
    obtain ⟨ix, c⟩ := p
    obtain ⟨-, H2, -⟩ := minAux_spec a.data 0 none ix c hsel
    have hle : keyOf c ≤ keyOf (.Possible ∅) := H2 j _ hj
    have hkey0 : keyOf c = 0 := by simpa [keyOf] using hle
    cases c with
    | Fixed v => exact absurd hkey0 (by simp [keyOf]; decide)
    | Possible s =>
      have hs : s = ∅ := Finset.card_eq_zero.mp (by simpa [keyOf] using hkey0)
      subst hs
      simp only [sortedGo, hsel]
      rw [if_neg (by simp)]
      rw [possibleSort_empty]
      rfl

/-- Claim C9: when some cell's candidate set is empty after the initial
propagation, both `dfs` and `sorted_dfs` return `Err` (the recursion is
total: `dfsGo` exhausts without descending past the contradiction and the
sorted scan selects the empty-set cell immediately, so neither loops
forever; `dfs` returns the original grid, `sorted_dfs` the propagated
grid converted back). -/
theorem c9_contradiction_err (g : Sudoku)
    (h : ((AugmentedSudoku.ofSudoku g).prune_possible).hasEmptyPossible = true) :
    dfs g = .error g ∧
      sorted_dfs g =
        .error ((AugmentedSudoku.ofSudoku g).prune_possible).toSudoku := by
  constructor
  · show (match dfsGo _ ((AugmentedSudoku.ofSudoku g).prune_possible) with
      | none => Except.error g
      | some s => Except.ok s) = Except.error g
    rw [dfsGo_none _ _ h]
  · show (match sortedGo (((AugmentedSudoku.ofSudoku g).prune_possible).countNonFixed + 1)
        ((AugmentedSudoku.ofSudoku g).prune_possible) with
      | (a2, none) => Except.error a2.toSudoku
      | (_, some s) => Except.ok s) =
      Except.error ((AugmentedSudoku.ofSudoku g).prune_possible).toSudoku
    rw [sortedGo_empty _ _ h]

/-- Claim C9 witness: `contraGrid4` has an empty candidate set at cell
(0,3) after propagation, and both strategies report `Err` on it. -/
theorem c9_witness :
    dfs contraGrid4 = .error contraGrid4 ∧
      sorted_dfs contraGrid4 =
        .error ((AugmentedSudoku.ofSudoku contraGrid4).prune_possible).toSudoku :=
  c9_contradiction_err contraGrid4 (by decide)

theorem strByteLen_all_one (s : List Char) (h : ∀ c ∈ s, c.utf8Size = 1) :
    strByteLen s = s.length := by
  induction s with
  | nil => rfl
  | cons c cs ih =>
    have h1 : c.utf8Size = 1 := h c (by simp)
    simp only [strByteLen, List.map_cons, List.sum_cons, List.length_cons] at *
    rw [h1, ih fun c' hc' => h c' (by simp [hc'])]
    omega

theorem from_str_ok (c : Char) (v : SudokuValue)
    (h : SudokuValue.from_str c = some (.ok v)) :
    v = none ∨ ∃ d, v = some d ∧ 1 ≤ d ∧ d ≤ 9 := by
  unfold SudokuValue.from_str at h
  split at h
  · simp at h
  · split at h
    · simp at h
      exact Or.inl h.symm
    · cases hp : parseDigit c with
      | some d =>
        rw [hp] at h
        simp at h
        unfold parseDigit at hp
        split at hp
        · rename_i hcond
          have hd : d = c.toNat - 48 := by
            have := Option.some.inj hp
            omega
          exact Or.inr ⟨d, h.symm, by omega⟩
        · simp at hp
      | none =>
        rw [hp] at h
        simp at h

theorem collectValues_ok (cs : List Char) :
    ∀ vals, collectValues cs = some (.ok vals) →
      vals.length = cs.length ∧
        ∀ v ∈ vals, v = none ∨ ∃ d, v = some d ∧ 1 ≤ d ∧ d ≤ 9 := by
  induction cs with
  | nil =>
    intro vals h
    simp only [collectValues] at h
    simp at h
    subst h
    exact ⟨rfl, by intro v hv; simp at hv⟩
  | cons c cs ih =>
    intro vals h
    simp only [collectValues] at h
    cases hc : SudokuValue.from_str c with
    | none => rw [hc] at h; simp at h
    | some r =>
      rw [hc] at h
      cases r with
      | error e => simp at h
      | ok v0 =>
        cases hrec : collectValues cs with
        | none => rw [hrec] at h; simp at h
        | some r2 =>
          rw [hrec] at h
          cases r2 with
          | error e => simp at h
          | ok vs =>
            simp at h
            subst h
            obtain ⟨hlen, hmem⟩ := ih vs hrec
            refine ⟨by simp [hlen], ?_⟩
            intro v hv
            rcases List.mem_cons.mp hv with rfl | hv'
            · exact from_str_ok c v hc
            · exact hmem v hv'

theorem fromOrderVec_four (vals : List SudokuValue) (h : vals.length = 16) :
    fromOrderVec 4 vals = some ⟨4, vals⟩ := by
  unfold fromOrderVec
  rw [if_pos]
  rw [h]
  decide

theorem fromOrderVec_nine (vals : List SudokuValue) (h : vals.length = 81) :
    fromOrderVec 9 vals = some ⟨9, vals⟩ := by
  unfold fromOrderVec
  rw [if_pos]
  rw [h]
  decide

/-- Claim C4 (amended): every non-empty cell of a successfully parsed grid
holds a digit in the range 1 to 9, whatever the parsed order is. -/
theorem c4_parse_cell_bounds (s : List Char) (g : Sudoku)
    (h : Sudoku.from_str s = some (.ok g)) (i d : Nat) (hc : g.cell i = some d) :
    1 ≤ d ∧ d ≤ 9 := by
  unfold Sudoku.from_str at h
  split at h
  · cases hcv : collectValues s with
    | none => rw [hcv] at h; simp at h
    | some r =>
      rw [hcv] at h
      cases r with
      | error e => simp at h
      | ok vals =>
        have h2 : (match vals.length with
            | 16 => Option.map Except.ok (fromOrderVec 4 vals)
            | 81 => Option.map Except.ok (fromOrderVec 9 vals)
            | _ => none) = some (Except.ok g) := h
        clear h
        obtain ⟨-, hmem⟩ := collectValues_ok s vals hcv
        have hgdata : g.data = vals := by
          split at h2
          · rename_i h16
            rw [fromOrderVec_four vals h16] at h2
            simp at h2
            rw [← h2]
          · rename_i h81
            rw [fromOrderVec_nine vals h81] at h2
            simp at h2
            rw [← h2]
          · simp at h2
        have hvm : (some d : SudokuValue) ∈ vals := by
          rw [Sudoku.cell, hgdata, List.getD_eq_getElem?_getD] at hc
          cases hvi : vals[i]? with
          | none => rw [hvi] at hc; simp at hc
          | some x =>
            rw [hvi] at hc
            simp at hc
            obtain ⟨hlt, hv⟩ := List.getElem?_eq_some.mp hvi
            rw [hc] at hv
            rw [← hv]
            exact List.getElem_mem hlt
        rcases hmem _ hvm with hn | ⟨d', hd', hb⟩
        · simp at hn
        · have : d' = d := by injection hd'.symm
          omega
  · simp at h

/-- Claim C4 counterexample: the length-16 text `nine15` parses although it
carries the digit 9, so the resulting order-4 grid has a non-empty cell
value outside the range 1 to 4 claimed by the spec. -/
theorem c4_counterexample :
    Sudoku.from_str nine15 = some (.ok ⟨4, some 9 :: List.replicate 15 none⟩) ∧
      (⟨4, some 9 :: List.replicate 15 none⟩ : Sudoku).cell 0 = some 9 ∧
      (⟨4, some 9 :: List.replicate 15 none⟩ : Sudoku).order = 4 ∧
      ¬ (9 ≤ (⟨4, some 9 :: List.replicate 15 none⟩ : Sudoku).order) := by
  refine ⟨by decide, by decide, rfl, by decide⟩

/-- Claim C4 witness: the theorem applied to the parse of `nine15` at cell 0. -/
theorem c4_witness : 1 ≤ 9 ∧ 9 ≤ 9 :=
  c4_parse_cell_bounds nine15 ⟨4, some 9 :: List.replicate 15 none⟩ (by decide)
    0 9 (by decide)

theorem collectValues_spec (cs : List Char) (h1 : ∀ c ∈ cs, c.utf8Size = 1) :
    (cs.all goodChar = true →
      ∃ vals, collectValues cs = some (.ok vals) ∧ vals.length = cs.length) ∧
    (cs.all goodChar = false → collectValues cs = some (.error ())) := by
  induction cs with
  | nil =>
    constructor
    · intro _
      exact ⟨[], rfl, rfl⟩
    · intro h
      simp at h
  | cons c cs ih =>
    have hc1 : c.utf8Size = 1 := h1 c (by simp)
    obtain ⟨ihok, iherr⟩ := ih fun c' hc' => h1 c' (by simp [hc'])
    constructor
    · intro hall
      rw [List.all_cons, Bool.and_eq_true] at hall
      obtain ⟨vals, hv, hlen⟩ := ihok hall.2
      by_cases hdot : c = '.'
      · refine ⟨none :: vals, ?_, by simp [hlen]⟩
        simp [collectValues, SudokuValue.from_str, hc1, hdot, hv,
          show ('.' : Char).utf8Size = 1 from by decide]
      · have hdig : 49 ≤ c.toNat ∧ c.toNat ≤ 57 := by
          have hg := hall.1
          simp [goodChar, hdot] at hg
          exact hg
        refine ⟨some (c.toNat - 48) :: vals, ?_, by simp [hlen]⟩
        simp [collectValues, SudokuValue.from_str, hc1, hdot, parseDigit, hdig, hv]
    · intro hall
      rw [List.all_cons, Bool.and_eq_false_iff] at hall
      by_cases hgc : goodChar c = true
      · have htail : cs.all goodChar = false := by
          rcases hall with hh | hh
          · rw [hgc] at hh; cases hh
          · exact hh
        have hcv := iherr htail
        by_cases hdot : c = '.'
        · simp [collectValues, SudokuValue.from_str, hc1, hdot, hcv,
            show ('.' : Char).utf8Size = 1 from by decide]
        · have hdig : 49 ≤ c.toNat ∧ c.toNat ≤ 57 := by
            simp [goodChar, hdot] at hgc
            exact hgc
          simp [collectValues, SudokuValue.from_str, hc1, hdot, parseDigit, hdig, hcv]
      · have hgcf : goodChar c = false := Bool.eq_false_iff.mpr hgc
        have hbad : ¬ c = '.' ∧ ¬ (49 ≤ c.toNat ∧ c.toNat ≤ 57) := by
          simpa [goodChar, Bool.or_eq_false_iff] using hgcf
        simp [collectValues, SudokuValue.from_str, hc1, hbad.1, parseDigit, hbad.2]

/-- Claim C3 (amended): parse panics (assertion failure) when the byte
length is not 16 or 81; for an input of a supported byte length made of
single-byte characters, parse returns a `ParseError` exactly when some
character is neither `'.'` nor a digit `'1'`-`'9'` (the character `'0'` is
an invalid digit), and returns a grid otherwise. -/
theorem c3_parse_spec (s : List Char) :
    (¬ (strByteLen s = 4 * 4 ∨ strByteLen s = 9 * 9) → Sudoku.from_str s = none) ∧
    ((strByteLen s = 4 * 4 ∨ strByteLen s = 9 * 9) → (∀ c ∈ s, c.utf8Size = 1) →
      (s.all goodChar = true → ∃ g, Sudoku.from_str s = some (.ok g)) ∧
      (s.all goodChar = false → Sudoku.from_str s = some (.error ()))) := by
  constructor
  · intro h
    unfold Sudoku.from_str
    rw [if_neg h]
  · intro hlen h1
    have hsl : strByteLen s = s.length := strByteLen_all_one s h1
    obtain ⟨hok, herr⟩ := collectValues_spec s h1
    constructor
    · intro hall
      obtain ⟨vals, hv, hvl⟩ := hok hall
      have hvl2 : vals.length = 16 ∨ vals.length = 81 := by omega
      unfold Sudoku.from_str
      rw [if_pos hlen, hv]
      rcases hvl2 with h16 | h81
      · refine ⟨⟨4, vals⟩, ?_⟩
        show (match vals.length with
          | 16 => Option.map Except.ok (fromOrderVec 4 vals)
          | 81 => Option.map Except.ok (fromOrderVec 9 vals)
          | _ => none) = some (Except.ok ⟨4, vals⟩)
        rw [h16]
        show Option.map Except.ok (fromOrderVec 4 vals) = some (Except.ok ⟨4, vals⟩)
        rw [fromOrderVec_four vals h16]
        rfl
      · refine ⟨⟨9, vals⟩, ?_⟩
        show (match vals.length with
          | 16 => Option.map Except.ok (fromOrderVec 4 vals)
          | 81 => Option.map Except.ok (fromOrderVec 9 vals)
          | _ => none) = some (Except.ok ⟨9, vals⟩)
        rw [h81]
        show Option.map Except.ok (fromOrderVec 9 vals) = some (Except.ok ⟨9, vals⟩)
        rw [fromOrderVec_nine vals h81]
        rfl
    · intro hall
      unfold Sudoku.from_str
      rw [if_pos hlen, herr hall]

/-- Claim C3 counterexample: the empty string has an unsupported length,
yet parse panics (the `assert!`, modelled `none`) instead of returning a
`ParseError` as the claim requires. -/
theorem c3_counterexample :
    ¬ (strByteLen ([] : List Char) = 4 * 4 ∨ strByteLen ([] : List Char) = 9 * 9) ∧
      Sudoku.from_str ([] : List Char) = none ∧
      Sudoku.from_str ([] : List Char) ≠ some (.error ()) := by
  refine ⟨by decide, rfl, by decide⟩

/-- Claim C3 witness: the amended theorem applied to the bad-digit text
`zero15` (a `ParseError`) and to the empty string (a panic). -/
theorem c3_witness :
    Sudoku.from_str zero15 = some (.error ()) ∧
      Sudoku.from_str ([] : List Char) = none :=
  ⟨((c3_parse_spec zero15).2 (by decide) (by decide)).2 (by decide),
    (c3_parse_spec []).1 (by decide)⟩

theorem sud_ext (a b : Sudoku) (h1 : a.order = b.order) (h2 : a.data = b.data) :
    a = b := by
  cases a; cases b; simp_all

theorem set_order (g : Sudoku) (i : Nat) (w : SudokuValue) :
    (g.set i w).order = g.order := rfl

theorem set_set_sudoku (g : Sudoku) (i : Nat) (a b : SudokuValue) :
    (g.set i a).set i b = g.set i b := by
  refine sud_ext _ _ rfl ?_
  show (g.data.set i a).set i b = g.data.set i b
  exact List.set_set a b g.data i

theorem list_set_getElem?_self {α : Type} (l : List α) (i : Nat) (a : α)
    (h : l[i]? = some a) : l.set i a = l := by
  apply List.ext_getElem?
  intro j
  by_cases hj : j = i
  · subst hj
    obtain ⟨hlt, -⟩ := List.getElem?_eq_some.mp h
    rw [List.getElem?_set_eq_of_lt _ hlt, h]
  · exact List.getElem?_set_ne fun hh => hj hh.symm

theorem set_none_self (g : Sudoku) (i : Nat) (h : g.data[i]? = some none) :
    g.set i none = g := by
  refine sud_ext _ _ rfl ?_
  exact list_set_getElem?_self g.data i none h

theorem cell_set_ne (g : Sudoku) (i j : Nat) (w : SudokuValue) (h : j ≠ i) :
    (g.set i w).cell j = g.cell j := by
  show (g.data.set i w).getD j none = g.data.getD j none
  rw [List.getD_eq_getElem?_getD, List.getD_eq_getElem?_getD,
    List.getElem?_set_ne fun hh => h hh.symm]

theorem findFirstEmpty_some (g : Sudoku) (ix : Nat) (h : g.findFirstEmpty = some ix) :
    g.data[ix]? = some none := by
  obtain ⟨k, hik, c, hk, hp⟩ := findIdxAux_some _ _ _ _ h
  have hike : ix = k := by omega
  subst hike
  rw [hk, Option.isNone_iff_eq_none.mp hp]

theorem emptyCount_pos (g : Sudoku) (ix : Nat) (h : g.data[ix]? = some none) :
    0 < g.emptyCount := by
  rw [Sudoku.emptyCount, List.countP_pos]
  obtain ⟨hlt, hv⟩ := List.getElem?_eq_some.mp h
  exact ⟨g.data[ix], List.getElem_mem hlt, by rw [hv]; rfl⟩

theorem emptyCount_set_some (g : Sudoku) (ix v : Nat) (h : g.data[ix]? = some none) :
    (g.set ix (some v)).emptyCount + 1 = g.emptyCount := by
  obtain ⟨hlt, hv⟩ := List.getElem?_eq_some.mp h
  show (g.data.set ix (some v)).countP (fun x => x.isNone) + 1 =
    g.data.countP fun x => x.isNone
  rw [List.countP_set _ _ _ _ hlt, hv]
  have hpos : 0 < g.data.countP fun x => x.isNone := emptyCount_pos g ix h
  simp only [Option.isNone_none, Option.isNone_some, if_true]
  simp
  omega

theorem naiveStep_error (next : Sudoku → SudokuResult) (ix : Nat) (σ : Sudoku)
    (v : Nat) :
    naiveStep next ix (.error σ) v =
      if (σ.set ix (some v)).valid then next (σ.set ix (some v))
      else .error (σ.set ix (some v)) := rfl

theorem naiveStep_ok (next : Sudoku → SudokuResult) (ix : Nat) (t : Sudoku)
    (v : Nat) : naiveStep next ix (.ok t) v = .ok t := rfl

theorem foldl_naiveStep_ok (next : Sudoku → SudokuResult) (ix : Nat)
    (vals : List Nat) (t : Sudoku) :
    vals.foldl (naiveStep next ix) (.ok t) = .ok t := by
  induction vals with
  | nil => rfl
  | cons v vs ih => rw [List.foldl_cons, naiveStep_ok]; exact ih

theorem validSubset_false_of_dup :
    ∀ (l : List SudokuValue) (p q d : Nat), p < q →
      l[p]? = some (some d) → l[q]? = some (some d) → validSubset l = false := by
  intro l
  induction l with
  | nil => intro p q d hpq hp hq; simp at hp
  | cons v rest ih =>
    intro p q d hpq hp hq
    cases p with
    | zero =>
      simp at hp
      subst hp
      cases q with
      | zero => omega
      | succ q' =>
        simp at hq
        have hmem : (some d : SudokuValue) ∈ rest := by
          obtain ⟨hlt, hv⟩ := List.getElem?_eq_some.mp hq
          rw [← hv]
          exact List.getElem_mem hlt
        have hany : (rest.any fun val => val == some d) = true :=
          List.any_eq_true.mpr ⟨_, hmem, by simp⟩
        simp [validSubset, hany]
    | succ p' =>
      cases q with
      | zero => omega
      | succ q' =>
        simp at hp hq
        have hres := ih p' q' d (by omega) hp hq
        simp [validSubset, hres]

theorem validSubset_false_elim :
    ∀ (l : List SudokuValue), validSubset l = false →
      ∃ (p q d : Nat), p < q ∧ l[p]? = some (some d) ∧ l[q]? = some (some d) := by
  intro l
  induction l with
  | nil => intro h; simp [validSubset] at h
  | cons v rest ih =>
    intro h
    rw [validSubset, Bool.and_eq_false_iff] at h
    rcases h with hh | hh
    · rw [Bool.or_eq_false_iff] at hh
      obtain ⟨h1, h2⟩ := hh
      obtain ⟨d, rfl⟩ : ∃ d, v = some d := by
        cases v with
        | none => simp at h1
        | some d => exact ⟨d, rfl⟩
      have h3 : (rest.any fun val => val == some d) = true := by
        cases hx : rest.any fun val => val == some d
        · rw [hx] at h2; simp at h2
        · rfl
      obtain ⟨x, hx, hbeq⟩ := List.any_eq_true.mp h3
      have hxe : x = some d := by simpa using hbeq
      subst hxe
      obtain ⟨q', hql, hqe⟩ := List.mem_iff_getElem.mp hx
      exact ⟨0, q' + 1, d, by omega, by simp,
        by simpa using (List.getElem?_eq_getElem hql).trans (by rw [hqe])⟩
    · obtain ⟨p, q, d, hpq, hp, hq⟩ := ih hh
      exact ⟨p + 1, q + 1, d, by omega, by simpa using hp, by simpa using hq⟩

theorem rowCells_getElem? (g : Sudoku) (r k : Nat) (hk : k < g.order) :
    (g.rowCells r)[k]? = some (g.cell (r * g.order + k)) := by
  unfold Sudoku.rowCells
  rw [List.getElem?_map, List.getElem?_range hk]
  rfl

theorem rowCells_length (g : Sudoku) (r : Nat) :
    (g.rowCells r).length = g.order := by
  simp [Sudoku.rowCells]

theorem valid_false_of_rowdup (g : Sudoku) (h : g.hasRowDup = true) :
    g.valid = false := by
  unfold Sudoku.hasRowDup at h
  obtain ⟨r, hr, hbad⟩ := List.any_eq_true.mp h
  have hrow : validSubset (g.rowCells r) = false := by simpa using hbad
  have hmem : g.rowCells r ∈ g.rows := by
    unfold Sudoku.rows
    exact List.mem_map.mpr ⟨r, hr, rfl⟩
  have hvs : valid_set g.rows = false := by
    unfold valid_set
    cases hx : g.rows.all validSubset
    · rfl
    · exact absurd (List.all_eq_true.mp hx _ hmem) (by simp [hrow])
  unfold Sudoku.valid
  rw [hvs]
  rfl

theorem hasRowDup_set (g : Sudoku) (ix : Nat) (hix : g.data[ix]? = some none)
    (w : SudokuValue) (h : g.hasRowDup = true) : (g.set ix w).hasRowDup = true := by
  unfold Sudoku.hasRowDup at h ⊢
  obtain ⟨r, hr, hbad⟩ := List.any_eq_true.mp h
  have hrow : validSubset (g.rowCells r) = false := by simpa using hbad
  obtain ⟨p, q, d, hpq, hp, hq⟩ := validSubset_false_elim _ hrow
  have hpo : p < g.order := by
    obtain ⟨hlt, -⟩ := List.getElem?_eq_some.mp hp
    rwa [rowCells_length] at hlt
  have hqo : q < g.order := by
    obtain ⟨hlt, -⟩ := List.getElem?_eq_some.mp hq
    rwa [rowCells_length] at hlt
  have hcp : g.cell (r * g.order + p) = some d := by
    rw [rowCells_getElem? g r p hpo] at hp
    exact Option.some.inj hp
  have hcq : g.cell (r * g.order + q) = some d := by
    rw [rowCells_getElem? g r q hqo] at hq
    exact Option.some.inj hq
  have hgcix : g.cell ix = none := by
    show g.data.getD ix none = none
    rw [List.getD_eq_getElem?_getD, hix]
    rfl
  have hne_p : r * g.order + p ≠ ix := by
    intro he
    rw [he, hgcix] at hcp
    cases hcp
  have hne_q : r * g.order + q ≠ ix := by
    intro he
    rw [he, hgcix] at hcq
    cases hcq
  refine List.any_eq_true.mpr ⟨r, by simpa [set_order] using hr, ?_⟩
  have hdup : validSubset ((g.set ix w).rowCells r) = false := by
    apply validSubset_false_of_dup _ p q d hpq
    · rw [rowCells_getElem? (g.set ix w) r p hpo]
      rw [show (g.set ix w).order = g.order from rfl,
        cell_set_ne g ix _ w hne_p, hcp]
    · rw [rowCells_getElem? (g.set ix w) r q hqo]
      rw [show (g.set ix w).order = g.order from rfl,
        cell_set_ne g ix _ w hne_q, hcq]
  simpa using hdup

theorem naiveGo_spec (f : Nat) :
    ∀ s : Sudoku, s.emptyCount < f →
      (naiveGo f s = .error s ∨ ∃ t, naiveGo f s = .ok t ∧ t.solved = true) ∧
      naiveGo (f + 1) s = naiveGo f s := by
  induction f using Nat.strong_induction_on with
  | _ f IH =>
    intro s hs
    cases f with
    | zero => omega
    | succ f' =>
      cases hfind : s.findFirstEmpty with
      | none =>
        constructor
        · cases hsol : s.solved
          · left
            simp [naiveGo, hfind, hsol]
          · right
            exact ⟨s, by simp [naiveGo, hfind, hsol], hsol⟩
        · simp [naiveGo, hfind]
      | some ix =>
        have hcell : s.data[ix]? = some none := findFirstEmpty_some s ix hfind
        have hEpos : 0 < s.emptyCount := emptyCount_pos s ix hcell
        have hloop : ∀ (vals : List Nat) (σ : Sudoku),
            (σ = s ∨ ∃ w, σ = s.set ix (some w)) →
            ((∃ τ, vals.foldl (naiveStep (naiveGo f') ix) (.error σ) = .error τ ∧
                (τ = s ∨ ∃ w, τ = s.set ix (some w))) ∨
              (∃ t, vals.foldl (naiveStep (naiveGo f') ix) (.error σ) = .ok t ∧
                t.solved = true)) ∧
            vals.foldl (naiveStep (naiveGo (f' + 1)) ix) (.error σ) =
              vals.foldl (naiveStep (naiveGo f') ix) (.error σ) := by
          intro vals
          induction vals with
          | nil =>
            intro σ hσ
            exact ⟨Or.inl ⟨σ, rfl, hσ⟩, rfl⟩
          | cons v vs ihv =>
            intro σ hσ
            have hσ' : σ.set ix (some v) = s.set ix (some v) := by
              rcases hσ with rfl | ⟨w, rfl⟩
              · rfl
              · exact set_set_sudoku s ix (some w) (some v)
            simp only [List.foldl_cons, naiveStep_error, hσ']
            cases hval : (s.set ix (some v)).valid
            · rw [if_neg (by simp), if_neg (by simp)]
              exact ihv (s.set ix (some v)) (Or.inr ⟨v, rfl⟩)
            · rw [if_pos rfl, if_pos rfl]
              have hE' : (s.set ix (some v)).emptyCount < f' := by
                have := emptyCount_set_some s ix v hcell
                omega
              obtain ⟨hpay, heq⟩ := IH f' (by omega) (s.set ix (some v)) hE'
              rw [heq]
              rcases hpay with herr | ⟨t, hok, hsol⟩
              · rw [herr]
                exact ihv (s.set ix (some v)) (Or.inr ⟨v, rfl⟩)
              · rw [hok]
                rw [foldl_naiveStep_ok, foldl_naiveStep_ok]
                exact ⟨Or.inr ⟨t, rfl, hsol⟩, rfl⟩
        obtain ⟨hpay, heq⟩ := hloop (List.range' 1 (s.order % 256)) s (Or.inl rfl)
        constructor
        · rcases hpay with ⟨τ, hτ, hτinv⟩ | ⟨t, hok, hsol⟩
          · left
            simp only [naiveGo, hfind]
            rw [hτ]
            have hτs : τ.set ix none = s := by
              rcases hτinv with h1 | ⟨w, h1⟩
              · rw [h1]
                exact set_none_self s ix hcell
              · rw [h1, set_set_sudoku]
                exact set_none_self s ix hcell
            show Except.error (τ.set ix none) = Except.error s
            rw [hτs]
          · right
            refine ⟨t, ?_, hsol⟩
            simp only [naiveGo, hfind]
            rw [hok]
        · have h1 : naiveGo (f' + 1 + 1) s =
              match (List.range' 1 (s.order % 256)).foldl
                  (naiveStep (naiveGo (f' + 1)) ix) (Except.error s) with
              | Except.ok g => Except.ok g
              | Except.error t => Except.error (t.set ix none) := by
            simp only [naiveGo, hfind]
          have h2 : naiveGo (f' + 1) s =
              match (List.range' 1 (s.order % 256)).foldl
                  (naiveStep (naiveGo f') ix) (Except.error s) with
              | Except.ok g => Except.ok g
              | Except.error t => Except.error (t.set ix none) := by
            simp only [naiveGo, hfind]
          rw [h1, h2, heq]

theorem naiveGo_fuel (f : Nat) (s : Sudoku) (h : s.emptyCount < f) :
    naiveGo f s = naive_dfs s := by
  have key : ∀ k : Nat, naiveGo (s.emptyCount + 1 + k) s = naiveGo (s.emptyCount + 1) s := by
    intro k
    induction k with
    | zero => rfl
    | succ k ih =>
      have := (naiveGo_spec (s.emptyCount + 1 + k) s (by omega)).2
      rw [show s.emptyCount + 1 + (k + 1) = s.emptyCount + 1 + k + 1 from by omega,
        this, ih]
  have hf : f = s.emptyCount + 1 + (f - s.emptyCount - 1) := by omega
  rw [naive_dfs, hf, key]

/-- Claim C1 (amended): whenever `naive_dfs` returns `Ok(g)`, the grid `g`
satisfies `solved()`. (The agreement part of the claim is refuted by
`c1_counterexample`: `dfs` and `sorted_dfs` skip the final validity check,
so on an already-filled invalid grid they return `Ok` while `naive_dfs`
returns `Err`, and their `Ok` grid is not solved.) -/
theorem c1_naive_ok_solved (g t : Sudoku) (h : naive_dfs g = .ok t) :
    t.solved = true := by
  obtain ⟨hpay, -⟩ := naiveGo_spec (g.emptyCount + 1) g (by omega)
  rw [show naiveGo (g.emptyCount + 1) g = naive_dfs g from rfl] at hpay
  rcases hpay with herr | ⟨t2, hok, hsol⟩
  · rw [h] at herr
    cases herr
  · rw [h] at hok
    obtain rfl : t = t2 := Except.ok.inj hok
    exact hsol

/-- Claim C1 counterexample: the parsable all-ones 4×4 grid. On it
`naive_dfs` returns `Err` while `dfs` and `sorted_dfs` return `Ok`, so the
strategies disagree on solvability; moreover the `Ok` grid they return
does not satisfy `solved()`. -/
theorem c1_counterexample :
    Sudoku.from_str ones16 = some (.ok allOnes4) ∧
      naive_dfs allOnes4 = .error allOnes4 ∧
      dfs allOnes4 = .ok allOnes4 ∧
      sorted_dfs allOnes4 = .ok allOnes4 ∧
      allOnes4.solved = false := by
  refine ⟨by decide, by decide, by decide, by decide, by decide⟩

/-- Claim C1 witness: `naive_dfs` on the already-solved grid `solvedGrid4`
returns it as `Ok`, and the theorem certifies it is solved. -/
theorem c1_witness : solvedGrid4.solved = true :=
  c1_naive_ok_solved solvedGrid4 solvedGrid4 (by decide)

/-- Claim C2 (amended): on a grid with two identical non-empty digits in
the same row, `naive_dfs` returns `Err` with the input grid. (The claim's
statement about `dfs` and `sorted_dfs` is refuted by
`c2_counterexample`: on a fully filled such grid both return `Ok`.) -/
theorem c2_naive_rowdup_err (g : Sudoku) (h : g.hasRowDup = true) :
    naive_dfs g = .error g := by
  show naiveGo (g.emptyCount + 1) g = .error g
  cases hfind : g.findFirstEmpty with
  | none =>
    have hval : g.valid = false := valid_false_of_rowdup g h
    have hsol : g.solved = false := by
      unfold Sudoku.solved
      rw [hval]
      simp
    simp [naiveGo, hfind, hsol]
  | some ix =>
    have hcell := findFirstEmpty_some g ix hfind
    have hloop : ∀ (vals : List Nat) (σ : Sudoku),
        (σ = g ∨ ∃ w, σ = g.set ix (some w)) →
        ∃ τ, vals.foldl (naiveStep (naiveGo g.emptyCount) ix) (.error σ) = .error τ ∧
          (τ = g ∨ ∃ w, τ = g.set ix (some w)) := by
      intro vals
      induction vals with
      | nil => intro σ hσ; exact ⟨σ, rfl, hσ⟩
      | cons v vs ihv =>
        intro σ hσ
        have hσ' : σ.set ix (some v) = g.set ix (some v) := by
          rcases hσ with h1 | ⟨w, h1⟩
          · rw [h1]
          · rw [h1, set_set_sudoku]
        have hdup : (g.set ix (some v)).hasRowDup = true :=
          hasRowDup_set g ix hcell _ h
        have hval : (g.set ix (some v)).valid = false := valid_false_of_rowdup _ hdup
        simp only [List.foldl_cons, naiveStep_error, hσ']
        rw [if_neg (by simp [hval])]
        exact ihv (g.set ix (some v)) (Or.inr ⟨v, rfl⟩)
    obtain ⟨τ, hτ, hinv⟩ := hloop (List.range' 1 (g.order % 256)) g (Or.inl rfl)
    simp only [naiveGo, hfind]
    rw [hτ]
    have hτs : τ.set ix none = g := by
      rcases hinv with h1 | ⟨w, h1⟩
      · rw [h1]
        exact set_none_self g ix hcell
      · rw [h1, set_set_sudoku]
        exact set_none_self g ix hcell
    show Except.error (τ.set ix none) = Except.error g
    rw [hτs]

/-- Claim C2 counterexample: the all-ones 4×4 grid has the digit 1 twice in
its first row (it is invalid), yet `dfs` and `sorted_dfs` return `Ok`
rather than the `Err` the claim requires of every strategy. -/
theorem c2_counterexample :
    allOnes4.cell 0 = some 1 ∧ allOnes4.cell 1 = some 1 ∧
      allOnes4.hasRowDup = true ∧
      dfs allOnes4 = .ok allOnes4 ∧
      sorted_dfs allOnes4 = .ok allOnes4 := by
  refine ⟨by decide, by decide, by decide, by decide, by decide⟩

/-- Claim C2 witness: the amended theorem applied to the concrete
row-duplicate grid `dupGrid4`. -/
theorem c2_witness : naive_dfs dupGrid4 = .error dupGrid4 :=
  c2_naive_rowdup_err dupGrid4 (by decide)

/-- Claim C10: when `naive_dfs` returns `Err(e)` the grid `e` is the input
grid (every cell written during the search has been cleared again), and
when `dfs` returns `Err(e)` the grid `e` is the input grid (the `orig`
clone is returned). -/
theorem c10_err_returns_input (g e₁ e₂ : Sudoku) :
    (naive_dfs g = .error e₁ → e₁ = g) ∧ (dfs g = .error e₂ → e₂ = g) := by
  constructor
  · intro h
    obtain ⟨hpay, -⟩ := naiveGo_spec (g.emptyCount + 1) g (by omega)
    rw [show naiveGo (g.emptyCount + 1) g = naive_dfs g from rfl] at hpay
    rcases hpay with herr | ⟨t, hok, -⟩
    · rw [h] at herr
      exact Except.error.inj herr
    · rw [h] at hok
      cases hok
  · intro h
    rw [show dfs g = (match dfsGo
        ((((AugmentedSudoku.ofSudoku g).prune_possible).countNonFixed) + 1)
        ((AugmentedSudoku.ofSudoku g).prune_possible) with
      | none => Except.error g
      | some s => Except.ok s) from rfl] at h
    cases hgo : dfsGo ((((AugmentedSudoku.ofSudoku g).prune_possible).countNonFixed) + 1)
        ((AugmentedSudoku.ofSudoku g).prune_possible) with
    | none =>
      rw [hgo] at h
      exact (Except.error.inj h).symm
    | some s =>
      rw [hgo] at h
      cases h

/-- Claim C10 witness: both strategies fail on `contraGrid4` and both
return the input grid itself. -/
theorem c10_witness : contraGrid4 = contraGrid4 ∧ contraGrid4 = contraGrid4 :=
  ⟨(c10_err_returns_input contraGrid4 contraGrid4 contraGrid4).1 (by decide),
    (c10_err_returns_input contraGrid4 contraGrid4 contraGrid4).2 (by decide)⟩

theorem countP_mapIdxFrom (p : AugmentedValue → Bool)
    (φ : Nat → AugmentedValue → AugmentedValue) (hφ : ∀ j c, p (φ j c) = p c) :
    ∀ (n : Nat) (l : List AugmentedValue),
      (mapIdxFrom φ n l).countP p = l.countP p := by
  intro n l
  induction l generalizing n with
  | nil => rfl
  | cons c cs ih =>
    simp only [mapIdxFrom, List.countP_cons, ih, hφ]

theorem countNonFixed_remove_value (a : AugmentedSudoku) (ix v : Nat) :
    (a.remove_value ix v).countNonFixed = a.countNonFixed := by
  show ((a.remove_value ix v).data.countP fun c => !c.is_fixed) = _
  simp only [AugmentedSudoku.remove_value]
  rw [countP_mapIdxFrom _ _ fun j c => by split <;> simp [is_fixed_remove],
    countP_mapIdxFrom _ _ fun j c => by split <;> simp [is_fixed_remove],
    countP_mapIdxFrom _ _ fun j c => by split <;> simp [is_fixed_remove]]
  rfl

theorem countNonFixed_fix (a : AugmentedSudoku) (ix v : Nat) (s : Finset Nat)
    (h : a.data[ix]? = some (.Possible s)) :
    (a.fix_value ix v).countNonFixed + 1 = a.countNonFixed := by
  obtain ⟨hlt, hv⟩ := List.getElem?_eq_some.mp h
  rw [show a.fix_value ix v = (a.setCell ix (.Fixed v)).remove_value ix v from rfl,
    countNonFixed_remove_value]
  show ((a.data.set ix (.Fixed v)).countP fun c => !c.is_fixed) + 1 =
    a.data.countP fun c => !c.is_fixed
  rw [List.countP_set _ _ _ _ hlt, hv]
  have hpos : 0 < a.data.countP fun c => !c.is_fixed := by
    rw [List.countP_pos]
    exact ⟨a.data[ix], List.getElem_mem hlt, by rw [hv]; rfl⟩
  rw [show (!(AugmentedValue.Fixed v).is_fixed) = false from rfl,
    show (!(AugmentedValue.Possible s).is_fixed) = true from rfl]
  rw [if_pos rfl, if_neg (by simp)]
  omega

theorem foldl_ext_gen {α β : Type} (f₁ f₂ : α → β → α) (h : ∀ a b, f₁ a b = f₂ a b) :
    ∀ (L : List β) (a : α), L.foldl f₁ a = L.foldl f₂ a := by
  intro L
  induction L with
  | nil => intro a; rfl
  | cons x xs ih =>
    intro a
    rw [List.foldl_cons, List.foldl_cons, h, ih]

/-- Fuel-irrelevance for `dfs_impl`: any fuel above the number of
non-`Fixed` cells computes the same result, so the fuel supplied by `dfs`
(the bound plus one) is sufficient and the embedding is faithful to the
unbounded Rust recursion. -/
theorem dfsGo_fuel (f₁ : Nat) :
    ∀ (f₂ : Nat) (a : AugmentedSudoku), a.countNonFixed < f₁ →
      a.countNonFixed < f₂ → dfsGo f₁ a = dfsGo f₂ a := by
  induction f₁ using Nat.strong_induction_on with
  | _ f₁ IH =>
    intro f₂ a h1 h2
    cases f₁ with
    | zero => omega
    | succ f₁' =>
      cases f₂ with
      | zero => omega
      | succ f₂' =>
        cases hfind : a.findFirstNonFixed with
        | none => simp [dfsGo, hfind]
        | some p =>
          obtain ⟨ix, c⟩ := p
          obtain ⟨hcell, hnf⟩ := findFirstNonFixed_some a ix c hfind
          cases c with
          | Fixed w => simp [AugmentedValue.is_fixed] at hnf
          | Possible s =>
            simp only [dfsGo, hfind]
            apply foldl_ext_gen
            intro acc v
            cases acc with
            | some t => rfl
            | none =>
              show dfsGo f₁' (a.fix_value ix v) = dfsGo f₂' (a.fix_value ix v)
              have hc := countNonFixed_fix a ix v s hcell
              exact IH f₁' (by omega) f₂' _ (by omega) (by omega)

/-- Fuel-irrelevance for `sorted_dfs_impl`, as for `dfsGo_fuel`. -/
theorem sortedGo_fuel (f₁ : Nat) :
    ∀ (f₂ : Nat) (a : AugmentedSudoku), a.countNonFixed < f₁ →
      a.countNonFixed < f₂ → sortedGo f₁ a = sortedGo f₂ a := by
  induction f₁ using Nat.strong_induction_on with
  | _ f₁ IH =>
    intro f₂ a h1 h2
    cases f₁ with
    | zero => omega
    | succ f₁' =>
      cases f₂ with
      | zero => omega
      | succ f₂' =>
        cases hsel : a.selectMinCell with
        | none => simp [sortedGo, hsel]
        | some p =>
          obtain ⟨ix, c⟩ := p
          cases c with
          | Fixed w => simp [sortedGo, hsel]
          | Possible s =>
            have hcell : a.data[ix]? = some (.Possible s) := by
              obtain ⟨H1, -, -⟩ := minAux_spec a.data 0 none ix (.Possible s) hsel
              rcases H1 with h' | ⟨k, hk, hik, hlk, -, -⟩
              · cases h'
              · have hixk : ix = k := by omega
                subst hixk
                exact hlk
            simp only [sortedGo, hsel]
            by_cases hcard : s.card = 1
            · rw [if_pos hcard, if_pos hcard]
              have hc := countNonFixed_fix a ix (theOnly s) s hcell
              exact IH f₁' (by omega) f₂' _ (by omega) (by omega)
            · rw [if_neg hcard, if_neg hcard]
              have hfold : (possibleSort s).foldl (fun acc value =>
                  match acc with
                  | some g => some g
                  | none => (sortedGo f₁' (a.fix_value ix value)).2) none =
                (possibleSort s).foldl (fun acc value =>
                  match acc with
                  | some g => some g
                  | none => (sortedGo f₂' (a.fix_value ix value)).2) none := by
                apply foldl_ext_gen
                intro acc v
                cases acc with
                | some t => rfl
                | none =>
                  show (sortedGo f₁' (a.fix_value ix v)).2 =
                    (sortedGo f₂' (a.fix_value ix v)).2
                  have hc := countNonFixed_fix a ix v s hcell
                  rw [IH f₁' (by omega) f₂' _ (by omega) (by omega)]
              rw [hfold]
